import Mathlib

/-!
# Verification of the DeepChat thread presenter core

Shallow embedding of `src/main/presenter/threadPresenter/index.ts`:
the stream event router (token / end / error handlers), the message
error finalization path, startup recovery, the prompt-assembler history
selection and role-merge pass, the search augmenter's block lifecycle,
and the `getAnswer` file-context substitution.

JavaScript numbers that only ever participate in exact integer
arithmetic are modelled as `Int`/`Nat`; the one floating-point division
(`tokensPerSecond`) is modelled over `ℚ` together with the IEEE special
values that JS division can produce (`Infinity`, `-Infinity`, `NaN`).
Strings handled by JS index arithmetic (`indexOf` / `lastIndexOf` /
`slice`) are modelled as `List Char`, with index = character position.
-/

namespace DeepChat

/-- A JavaScript number outcome: either a finite rational or one of the
IEEE special values that division can produce. -/
inductive JsNum where
  | num (q : ℚ)
  | posInf
  | negInf
  | nan
deriving DecidableEq

/-- JavaScript division: never throws; division by zero yields
`Infinity` / `-Infinity` / `NaN` according to the sign of the numerator. -/
def jsDiv (a b : ℚ) : JsNum :=
  if b = 0 then
    if a = 0 then JsNum.nan else if 0 < a then JsNum.posInf else JsNum.negInf
  else JsNum.num (a / b)

/-- `AssistantMessageBlock.type` (string-tagged in the source). -/
inductive BlockType where
  | content
  | reasoning_content
  | search
  | error
deriving DecidableEq

/-- `AssistantMessageBlock.status`. -/
inductive BlockStatus where
  | loading
  | reading
  | success
  | error
  | cancel
deriving DecidableEq

/-- One `AssistantMessageBlock`: type, content string, status, timestamp,
and the optional `extra.total` carried by search blocks. -/
structure Block where
  type : BlockType
  content : String
  status : BlockStatus
  timestamp : Int
  extra : Option Nat
deriving DecidableEq

/-- The invariant claimed for block lists: every block except possibly
the trailing one is not `loading`. -/
def trailingLoadingOnly (blocks : List Block) : Prop :=
  ∀ b ∈ blocks.dropLast, b.status ≠ BlockStatus.loading

instance (blocks : List Block) : Decidable (trailingLoadingOnly blocks) :=
  List.decidableBAll _ _

/-! ## Stream event router: token events (`STREAM_EVENTS.RESPONSE`)

The source handler (index.ts lines 105-160) captures
`const lastBlock = state.message.content[content.length - 1]` once and
then runs the `content` branch followed by the `reasoning_content`
branch, both against that same captured reference.  `stepLast` models
the effect of both branches on the captured last block `lb`: the block
evolves through the two phases and each phase may additionally push a
fresh block.  JS truthiness of the event fields is modelled by
comparing with the empty string. -/

/-- Effect of one token event on the captured trailing block `lb`:
returns the final state of `lb` followed by the blocks pushed after it. -/
def stepLast (now : Int) (c r : String) (lb : Block) : List Block :=
  -- `if (content) { ... }` branch, against the captured lastBlock
  let p1 : Block × List Block :=
    if c = "" then (lb, [])
    else if lb.type = BlockType.content then
      ({ lb with content := lb.content ++ c }, [])
    else
      ({ lb with status := BlockStatus.success },
        [⟨BlockType.content, c, BlockStatus.loading, now, none⟩])
  -- `if (reasoning_content) { ... }` branch, against the same reference
  let p2 : Block × List Block :=
    if r = "" then (p1.1, [])
    else if p1.1.type = BlockType.reasoning_content then
      ({ p1.1 with content := p1.1.content ++ r }, [])
    else
      ({ p1.1 with status := BlockStatus.success },
        [⟨BlockType.reasoning_content, r, BlockStatus.loading, now, none⟩])
  p2.1 :: (p1.2 ++ p2.2)

/-- The `STREAM_EVENTS.RESPONSE` handler's effect on the block list of
the in-flight assistant message (token timing metadata omitted). -/
def processResponse (now : Int) (c r : String) (blocks : List Block) : List Block :=
  match blocks.getLast? with
  | none =>
      -- captured lastBlock is undefined: each branch just pushes
      (if c = "" then [] else [⟨BlockType.content, c, BlockStatus.loading, now, none⟩]) ++
      (if r = "" then [] else [⟨BlockType.reasoning_content, r, BlockStatus.loading, now, none⟩])
  | some lb => blocks.dropLast ++ stepLast now c r lb

/-! ## Stream event router: end events (`STREAM_EVENTS.END`) -/

/-- The transient `GeneratingMessageState` (timing/token counters; the
in-memory message itself is carried separately as its block list). -/
structure GenEntry where
  conversationId : Nat
  startTime : Int
  firstTokenTime : Option Int
  promptTokens : Nat
  reasoningStartTime : Option Int
  reasoningEndTime : Option Int
  lastReasoningTime : Option Int
deriving DecidableEq

/-- The metadata record persisted by the END handler. -/
structure EndMeta where
  totalTokens : Nat
  inputTokens : Nat
  outputTokens : Nat
  generationTime : Int
  firstTokenTime : Int
  tokensPerSecond : JsNum
  reasoningStartTime : Option Int
  reasoningEndTime : Option Int
deriving DecidableEq

/-- JS truthiness of `state.firstTokenTime` (a `number | null`):
falsy when `null` or `0`. -/
def truthyInt (t : Option Int) : Bool :=
  match t with
  | none => false
  | some v => v != 0

/-- `tokensPerSecond = completionTokens / (generationTime / 1000)`
exactly as computed on line 194 of the source — no division-by-zero
guard; JS semantics give the special values at `generationTime = 0`. -/
def tokensPerSecondCalc (completionTokens : Nat) (generationTime : Int) : JsNum :=
  jsDiv (completionTokens : ℚ) ((generationTime : ℚ) / 1000)

/-- The `STREAM_EVENTS.END` handler (index.ts lines 161-218): mark all
blocks `success`, sum approximate sizes of content/reasoning blocks,
synthesize a no-model-response error block when none exists, and build
the metadata record.  `approx` stands for the external
`approximateTokenSize` estimator. -/
def endHandler (approx : String → Nat) (now : Int) (st : GenEntry)
    (blocks : List Block) : List Block × EndMeta :=
  let blocks1 := blocks.map (fun b => { b with status := BlockStatus.success })
  let completionTokens := blocks1.foldl
    (fun acc b =>
      if b.type = BlockType.content ∨ b.type = BlockType.reasoning_content then
        acc + approx b.content
      else acc) 0
  let hasContentBlock := blocks1.any
    (fun b => decide (b.type = BlockType.content ∨ b.type = BlockType.reasoning_content))
  let blocks2 :=
    if hasContentBlock then blocks1
    else blocks1 ++ [⟨BlockType.error, "common.error.noModelResponse", BlockStatus.error, now, none⟩]
  let generationTime := now - (st.firstTokenTime.getD st.startTime)
  let meta : EndMeta :=
    { totalTokens := st.promptTokens + completionTokens
      inputTokens := st.promptTokens
      outputTokens := completionTokens
      generationTime := generationTime
      firstTokenTime :=
        if truthyInt st.firstTokenTime then st.firstTokenTime.getD 0 - st.startTime else 0
      tokensPerSecond := tokensPerSecondCalc completionTokens generationTime
      reasoningStartTime :=
        if st.reasoningStartTime.isSome ∧ st.lastReasoningTime.isSome then
          (st.reasoningStartTime.getD 0 - st.startTime : Int)
        else none
      reasoningEndTime :=
        if st.reasoningStartTime.isSome ∧ st.lastReasoningTime.isSome then
          (st.lastReasoningTime.getD 0 - st.startTime : Int)
        else none }
  (blocks2, meta)

/-! ## Store-level model

The message/conversation store (a collaborator) is modelled as nested
lists; `editMessage` / `updateMessageStatus` / `updateMessageMetadata`
replace the addressed message wherever its id occurs.  JSON
(de)serialization of the block list is modelled as the identity, so a
stored assistant message carries its blocks directly. -/

/-- `MESSAGE_STATUS`. -/
inductive MsgStatus where
  | pending
  | sent
  | error
deriving DecidableEq

/-- `MESSAGE_ROLE` (the values the recovery scan distinguishes). -/
inductive MsgRole where
  | user
  | assistant
  | system
deriving DecidableEq

/-- The metadata fields of a stored message that the modelled code
writes (`updateMessageMetadata` merges field-wise; only the fields the
model ever writes are carried). -/
structure MsgMeta where
  totalTokens : Nat
  generationTime : Int
  firstTokenTime : Int
  tokensPerSecond : JsNum
deriving DecidableEq

/-- A stored message row. -/
structure StoredMessage where
  id : Nat
  role : MsgRole
  status : MsgStatus
  blocks : List Block
  meta : MsgMeta
deriving DecidableEq

/-- A conversation row with its message thread in storage order. -/
structure Conversation where
  id : Nat
  messages : List StoredMessage
deriving DecidableEq

/-- The orchestrator state: the persistent store plus the transient
`generatingMessages` table keyed by assistant message id. -/
structure ThreadState where
  conversations : List Conversation
  generating : List (Nat × GenEntry)
deriving DecidableEq

/-- All message rows in storage order. -/
def allMessages (st : ThreadState) : List StoredMessage :=
  (st.conversations.map Conversation.messages).flatten

/-- `messageManager.getMessage(messageId)`: first message with the id,
searching conversations in order. -/
def getStoredMessage (st : ThreadState) (mid : Nat) : Option StoredMessage :=
  (allMessages st).find? (fun m => m.id == mid)

/-- Rewrite every message carrying the id (the store is id-addressed). -/
def updateStoredMessage (mid : Nat) (f : StoredMessage → StoredMessage)
    (st : ThreadState) : ThreadState :=
  { st with
    conversations := st.conversations.map (fun c =>
      { c with messages := c.messages.map (fun m => if m.id = mid then f m else m) }) }

/-- Block-list transformation performed by `handleMessageError`
(index.ts lines 263-276): every `loading` block becomes `error`, then a
terminal error block carrying `errorMessage` is appended. -/
def markErrorBlocks (now : Int) (errorMessage : String) (blocks : List Block) : List Block :=
  blocks.map (fun b =>
    if b.status = BlockStatus.loading then { b with status := BlockStatus.error } else b) ++
  [⟨BlockType.error, errorMessage, BlockStatus.error, now, none⟩]

/-- The per-message effect of `handleMessageError`: status forced to
`error` and the block-list transformation applied. -/
def msgUpd (now : Int) (errorMessage : String) (m : StoredMessage) : StoredMessage :=
  { m with
    status := MsgStatus.error
    blocks := markErrorBlocks now errorMessage m.blocks }

/-- `handleMessageError(messageId, errorMessage)` (index.ts lines
247-281): no-op when the message is missing; otherwise mark loading
blocks, append the error block, and set the message status to `error`. -/
def handleMessageError (now : Int) (mid : Nat) (errorMessage : String)
    (st : ThreadState) : ThreadState :=
  match getStoredMessage st mid with
  | none => st
  | some _ => updateStoredMessage mid (msgUpd now errorMessage) st

/-- The `STREAM_EVENTS.ERROR` handler (index.ts lines 219-226): when a
generating entry exists for the event id, run `handleMessageError` and
then delete the entry. -/
def streamErrorEv (now : Int) (eventId : Nat) (err : String) (st : ThreadState) : ThreadState :=
  match st.generating.find? (fun e => e.1 == eventId) with
  | none => st
  | some _ =>
      let st1 := handleMessageError now eventId err st
      { st1 with generating := st1.generating.filter (fun e => e.1 != eventId) }

/-- `startStreamCompletion(conversationId, ...)` (index.ts lines
727-953), with the prompt-assembly stage abstracted as an `Except`
outcome: `.ok promptTokens` stands for a successful assembly (the
handler then refreshes the generating entry and the message usage
metadata before calling the provider), `.error e` stands for any
exception thrown during assembly.  The returned `Option String` is the
exception the call re-raises to its caller, if any. -/
def startStreamCompletionModel (now : Int) (cid : Nat)
    (assembly : Except String Nat) (st : ThreadState) : ThreadState × Option String :=
  match st.generating.find? (fun e => e.2.conversationId == cid) with
  | none => (st, none)  -- "未找到状态": warn and return
  | some (mid, entry) =>
      match assembly with
      | Except.ok promptTokens =>
          let st1 := { st with
            generating := st.generating.map (fun p =>
              if p.1 = mid then
                (mid, { entry with
                  startTime := now
                  firstTokenTime := none
                  promptTokens := promptTokens })
              else p) }
          let st2 := updateStoredMessage mid
            (fun m => { m with meta :=
              ⟨promptTokens, 0, 0, JsNum.num 0⟩ }) st1
          (st2, none)
      | Except.error e =>
          -- catch block, lines 948-952: finalize through the shared
          -- error path, then re-throw.  The generating entry is NOT
          -- deleted here (unlike the stream error event handler).
          (handleMessageError now mid e st, some e)

/-- One iteration of the recovery scan: fetch page 1 / page size 1000
of the conversation's thread from the current store, filter the pending
assistant messages, and finalize each via `handleMessageError` with the
session-interrupted marker. -/
def initStep (now : Int) (acc : ThreadState) (conv : Conversation) : ThreadState :=
  let thread :=
    match acc.conversations.find? (fun c => c.id == conv.id) with
    | none => []
    | some c => (c.messages.drop 0).take 1000
  let pendingMessages := thread.filter
    (fun m => m.role == MsgRole.assistant && m.status == MsgStatus.pending)
  pendingMessages.foldl
    (fun acc2 m => handleMessageError now m.id "common.error.sessionInterrupted" acc2)
    acc

/-- `initializeUnfinishedMessages` (index.ts lines 286-308): page 1 /
page size 1000 of the conversation list; for each conversation, page 1
/ page size 1000 of its thread; every assistant message still `pending`
is finalized via `handleMessageError` with the session-interrupted
marker. -/
def initializeUnfinishedMessages (now : Int) (st : ThreadState) : ThreadState :=
  ((st.conversations.drop 0).take 1000).foldl (initStep now) st

/-! ## Prompt assembler: history selection (index.ts lines 816-848) -/

/-- A history message as seen by the selection loop; `size` abstracts
`approximateTokenSize` applied to the role-dependent rendering. -/
structure HistoryMsg where
  id : Nat
  size : Nat
deriving DecidableEq

/-- The `for (const msg of messages) { ... }` loop: `cur` is
`currentLength`, `sel` is `selectedMessages` (msgs arrive newest-first
and are `unshift`ed, so `sel` is chronological). -/
def selectLoop (remaining : Int) : List HistoryMsg → Int → List HistoryMsg → List HistoryMsg
  | [], _, sel => sel
  | m :: rest, cur, sel =>
      if cur + (m.size : Int) ≤ remaining then
        selectLoop remaining rest (cur + (m.size : Int)) (m :: sel)
      else sel

/-- History selection: `remainingContextLength = contextLength -
reservedTokens`; when positive, walk the history (current user message
filtered out, then reversed to newest-first) accumulating sizes until
the next message would exceed the budget; otherwise the context is
empty. -/
def selectContext (userMsgId : Nat) (contextLength reservedTokens : Nat)
    (msgs : List HistoryMsg) : List HistoryMsg :=
  let remaining : Int := (contextLength : Int) - (reservedTokens : Int)
  if 0 < remaining then
    selectLoop remaining ((msgs.filter (fun m => m.id != userMsgId)).reverse) 0 []
  else []

/-! ## Prompt assembler: role-merge pass (index.ts lines 902-915) -/

/-- A role-tagged provider message. -/
structure FormattedMsg where
  role : MsgRole
  content : String
deriving DecidableEq

/-- One iteration of the merge loop: when the accumulator's last entry
has the current entry's role, join by appending `"\n" ++ content` to it;
otherwise push the current entry. -/
def mergeStep (merged : List FormattedMsg) (cur : FormattedMsg) : List FormattedMsg :=
  match merged.getLast? with
  | some last =>
      if last.role = cur.role then
        merged.dropLast ++ [{ last with content := last.content ++ "\n" ++ cur.content }]
      else merged ++ [cur]
  | none => merged ++ [cur]

/-- The merge pass: the source loop over `formattedMessages` with its
`mergedMessages` accumulator. -/
def mergePass (msgs : List FormattedMsg) : List FormattedMsg :=
  msgs.foldl mergeStep []

/-! ## Search augmenter (index.ts lines 631-715) -/

/-- A backend search result row. -/
structure SearchResult where
  title : String
  url : String
  content : String
  description : String
  icon : String
deriving DecidableEq

/-- Observable outcome of `startStreamSearch`: the value returned to
the caller, the final in-memory block list, every `editMessage`
snapshot in order, and the attachment rows stored. -/
structure SearchRunResult where
  results : List SearchResult
  blocks : List Block
  persisted : List (List Block)
  attachments : List SearchResult
deriving DecidableEq

/-- `startStreamSearch(conversationId, messageId, query)` with the
collaborator stages abstracted: `stateFound` is whether the generating
entry exists (otherwise the function throws before touching blocks),
and `searchOutcome` is the result of `searchManager.search` (the query
rewrite stage never raises).  A thrown error is modelled as
`Except.error`; the `catch` block converts a search failure into a
normal return of `[]`. -/
def startStreamSearchModel (now : Int) (stateFound : Bool)
    (searchOutcome : Except String (List SearchResult)) (blocks : List Block) :
    Except String SearchRunResult :=
  if !stateFound then Except.error "找不到生成状态"
  else
    let searchBlock : Block := ⟨BlockType.search, "", BlockStatus.loading, now, some 0⟩
    let blocks1 := searchBlock :: blocks
    match searchOutcome with
    | Except.error e =>
        -- catch: status error, stringified error as content, persist, return []
        let sb := { searchBlock with status := BlockStatus.error, content := e }
        let blocks2 := sb :: blocks
        Except.ok ⟨[], blocks2, [blocks1, blocks2], []⟩
    | Except.ok results =>
        let sb1 := { searchBlock with
          status := BlockStatus.reading, extra := some results.length }
        let blocks2 := sb1 :: blocks
        let sb2 := { sb1 with status := BlockStatus.success }
        let blocks3 := sb2 :: blocks
        Except.ok ⟨results, blocks3, [blocks1, blocks2, blocks3], results⟩

/-! ## `getAnswer` (index.ts lines 773-787): JS string-index machinery

Strings are `List Char` so that JS character indices are list indices.
`firstOcc` / `lastOcc` compute the first / last position at which the
pattern occurs (as `String.prototype.indexOf` / `lastIndexOf` do,
including the empty-pattern conventions), and `jsSlice` implements
`String.prototype.slice` with its negative-index and clamping rules. -/

/-- Character-list strings. -/
abbrev Str := List Char

/-- Position of the first occurrence of `pat` (matching JS `indexOf`:
the empty pattern occurs at 0). -/
def firstOcc (pat : Str) : Str → Option Nat
  | [] => if pat.isPrefixOf ([] : Str) then some 0 else none
  | ch :: t =>
      if pat.isPrefixOf (ch :: t) then some 0
      else (firstOcc pat t).map (· + 1)

/-- Position of the last occurrence of `pat` (matching JS
`lastIndexOf`: the empty pattern occurs at `s.length`). -/
def lastOcc (pat : Str) : Str → Option Nat
  | [] => if pat.isPrefixOf ([] : Str) then some 0 else none
  | ch :: t =>
      match lastOcc pat t with
      | some i => some (i + 1)
      | none => if pat.isPrefixOf (ch :: t) then some 0 else none

/-- JS `s.indexOf(pat)`: the occurrence position, or `-1`. -/
def jsIndexOf (s pat : Str) : Int :=
  match firstOcc pat s with
  | some i => (i : Int)
  | none => -1

/-- JS `s.lastIndexOf(pat)`: the occurrence position, or `-1`. -/
def jsLastIndexOf (s pat : Str) : Int :=
  match lastOcc pat s with
  | some i => (i : Int)
  | none => -1

/-- JS `s.slice(a, b)`: negative indices count from the end, then both
ends are clamped to `[0, length]`. -/
def jsSlice (s : Str) (a b : Int) : Str :=
  let n : Int := (s.length : Int)
  let st := if a < 0 then max (n + a) 0 else min a n
  let en := if b < 0 then max (n + b) 0 else min b n
  (s.take en.toNat).drop st.toNat

/-- The literal `'question'` searched for by `getAnswer`. -/
def questionMarker : Str := "question".toList

/-- The literal `'以 answer 的内容为准'` appended by `getAnswer`. -/
def answerMarker : Str := "以 answer 的内容为准".toList

/-- An attached file as `getAnswer` sees it: `content` plus the other
fields preserved by the `{ ...file, content }` spread (represented by
`name`). -/
structure MessageFile where
  name : Str
  content : Str
deriving DecidableEq

/-- `getAnswer(files)` from `startStreamCompletion` (text is the
captured `userMessage?.content.text || ''`): find the first file whose
content contains the text; if none, return the files unchanged;
otherwise return just that file, its content replaced by
`content.slice(questionStart, questionEnd)` plus the answer marker,
where `questionStart` is `lastIndexOf('question')` in the prefix before
the text and `questionEnd` is `textIndex + indexOf('question')` in the
suffix from the text on. -/
def getAnswer (text : Str) (files : List MessageFile) : List MessageFile :=
  match files.find? (fun f => decide (jsIndexOf f.content text > -1)) with
  | none => files
  | some file =>
      let textIndex := jsIndexOf file.content text
      let questionStart := jsLastIndexOf (jsSlice file.content 0 textIndex) questionMarker
      let questionEnd :=
        textIndex + jsIndexOf (jsSlice file.content textIndex (file.content.length : Int)) questionMarker
      let newContent := jsSlice file.content questionStart questionEnd ++ answerMarker
      [{ file with content := newContent }]

/-- `pat` occurs in `s` at position `i`. -/
def occursAt (s pat : Str) (i : Nat) : Prop :=
  pat.isPrefixOf (s.drop i) = true

instance (s pat : Str) (i : Nat) : Decidable (occursAt s pat i) := by
  unfold occursAt; infer_instance

/-- `s` contains `pat` as a substring. -/
def containsSub (s pat : Str) : Prop :=
  ∃ i, i ≤ s.length ∧ occursAt s pat i

instance (s pat : Str) : Decidable (containsSub s pat) :=
  decidable_of_iff
    ((List.range (s.length + 1)).any (fun i => pat.isPrefixOf (s.drop i)) = true) (by
    simp only [List.any_eq_true, List.mem_range, Nat.lt_succ_iff]
    exact Iff.rfl)

/-! ## Claim theorems -/

lemma tokensPerSecondCalc_pos (ct : Nat) (gt : Int) (h : 0 < gt) :
    ∃ q : ℚ, 0 ≤ q ∧ tokensPerSecondCalc ct gt = JsNum.num q := by
  have hq : (0 : ℚ) < (gt : ℚ) := by exact_mod_cast h
  refine ⟨(ct : ℚ) / ((gt : ℚ) / 1000), ?_, ?_⟩
  · have h1 : (0 : ℚ) ≤ (ct : ℚ) := by positivity
    have h2 : (0 : ℚ) ≤ (gt : ℚ) / 1000 := by positivity
    exact div_nonneg h1 h2
  · unfold tokensPerSecondCalc jsDiv
    rw [if_neg]
    intro hc
    rw [div_eq_zero_iff] at hc
    rcases hc with hc | hc
    · exact absurd hc (ne_of_gt hq)
    · norm_num at hc

lemma tokensPerSecondCalc_zero (ct : Nat) :
    tokensPerSecondCalc ct 0 = if ct = 0 then JsNum.nan else JsNum.posInf := by
  unfold tokensPerSecondCalc jsDiv
  norm_num
  rcases Nat.eq_zero_or_pos ct with h | h
  · simp [h]
  · rw [if_pos h, if_neg (Nat.pos_iff_ne_zero.mp h)]

/-- C1 (amended): in the END handler, for a positive generation time the
computed tokensPerSecond is a non-negative rational; at generation time
zero the division is not skipped — the result is NaN when the completion
token count is zero and positive Infinity otherwise (and no fault occurs:
the handler is a total function). -/
theorem C1_end_tokensPerSecond (approx : String → Nat) (now : Int)
    (st : GenEntry) (blocks : List Block) :
    (0 < (endHandler approx now st blocks).2.generationTime →
      ∃ q : ℚ, 0 ≤ q ∧ (endHandler approx now st blocks).2.tokensPerSecond = JsNum.num q)
    ∧ ((endHandler approx now st blocks).2.generationTime = 0 →
        ((endHandler approx now st blocks).2.outputTokens = 0 →
            (endHandler approx now st blocks).2.tokensPerSecond = JsNum.nan)
        ∧ (0 < (endHandler approx now st blocks).2.outputTokens →
            (endHandler approx now st blocks).2.tokensPerSecond = JsNum.posInf)) := by
  have hm : (endHandler approx now st blocks).2.tokensPerSecond
      = tokensPerSecondCalc (endHandler approx now st blocks).2.outputTokens
          (endHandler approx now st blocks).2.generationTime := rfl
  constructor
  · intro h
    rw [hm]
    exact tokensPerSecondCalc_pos _ _ h
  · intro h
    rw [hm, h, tokensPerSecondCalc_zero]
    constructor
    · intro h0
      simp [h0]
    · intro h0
      rw [if_neg (Nat.pos_iff_ne_zero.mp h0)]

/-- Witness for C1: a run with 2 completion tokens over 500 ms has a
non-negative rational rate, and a run with 5 tokens in 0 ms yields NaN
or Infinity according to the token count. -/
theorem C1_end_tokensPerSecond_witness :
    (0 < (endHandler (fun s => s.length) 1000 ⟨0, 0, some 500, 3, none, none, none⟩
        [⟨BlockType.content, "hi", BlockStatus.loading, 0, none⟩]).2.generationTime
      ∧ ∃ q : ℚ, 0 ≤ q ∧ (endHandler (fun s => s.length) 1000 ⟨0, 0, some 500, 3, none, none, none⟩
        [⟨BlockType.content, "hi", BlockStatus.loading, 0, none⟩]).2.tokensPerSecond = JsNum.num q)
    ∧ ((endHandler (fun s => s.length) 100 ⟨0, 0, some 100, 0, none, none, none⟩
        [⟨BlockType.content, "hello", BlockStatus.loading, 0, none⟩]).2.generationTime = 0
      ∧ (endHandler (fun s => s.length) 100 ⟨0, 0, some 100, 0, none, none, none⟩
        [⟨BlockType.content, "hello", BlockStatus.loading, 0, none⟩]).2.tokensPerSecond = JsNum.posInf) :=
  ⟨⟨by decide,
    (C1_end_tokensPerSecond (fun s => s.length) 1000 ⟨0, 0, some 500, 3, none, none, none⟩
        [⟨BlockType.content, "hi", BlockStatus.loading, 0, none⟩]).1 (by decide)⟩,
   ⟨by decide,
    ((C1_end_tokensPerSecond (fun s => s.length) 100 ⟨0, 0, some 100, 0, none, none, none⟩
        [⟨BlockType.content, "hello", BlockStatus.loading, 0, none⟩]).2 (by decide)).2
      (by decide)⟩⟩

/-- Counterexample to C1 as stated: at generationTime = 0 with 5
completion tokens the handler does not fall back to the raw token count
(5); the division is executed and yields Infinity. -/
theorem C1_counterexample :
    (endHandler (fun s => s.length) 100 ⟨0, 0, some 100, 0, none, none, none⟩
        [⟨BlockType.content, "hello", BlockStatus.loading, 0, none⟩]).2.generationTime = 0
    ∧ (endHandler (fun s => s.length) 100 ⟨0, 0, some 100, 0, none, none, none⟩
        [⟨BlockType.content, "hello", BlockStatus.loading, 0, none⟩]).2.outputTokens = 5
    ∧ (endHandler (fun s => s.length) 100 ⟨0, 0, some 100, 0, none, none, none⟩
        [⟨BlockType.content, "hello", BlockStatus.loading, 0, none⟩]).2.tokensPerSecond = JsNum.posInf
    ∧ JsNum.posInf ≠ JsNum.num (5 : ℚ) := by
  refine ⟨by decide, by decide, ?_, by simp⟩
  norm_num [endHandler, tokensPerSecondCalc, jsDiv]
  decide

/-- C6: the END handler appends exactly one synthesized no-model-response
error block when the message has no content/reasoning block, and appends
nothing when at least one exists. -/
theorem C6_end_synthesized_error (approx : String → Nat) (now : Int)
    (st : GenEntry) (blocks : List Block) :
    ((∀ b ∈ blocks, b.type ≠ BlockType.content ∧ b.type ≠ BlockType.reasoning_content) →
      (endHandler approx now st blocks).1
        = blocks.map (fun b => { b with status := BlockStatus.success })
          ++ [⟨BlockType.error, "common.error.noModelResponse", BlockStatus.error, now, none⟩])
    ∧ ((∃ b ∈ blocks, b.type = BlockType.content ∨ b.type = BlockType.reasoning_content) →
      (endHandler approx now st blocks).1
        = blocks.map (fun b => { b with status := BlockStatus.success })) := by
  have hany : (blocks.map (fun b => { b with status := BlockStatus.success })).any
      (fun b => decide (b.type = BlockType.content ∨ b.type = BlockType.reasoning_content)) =
      blocks.any (fun b => decide (b.type = BlockType.content ∨ b.type = BlockType.reasoning_content)) := by
    rw [List.any_map]; rfl
  constructor
  · intro h
    have hfalse : blocks.any
        (fun b => decide (b.type = BlockType.content ∨ b.type = BlockType.reasoning_content)) = false := by
      rw [List.any_eq_false]
      intro b hb
      rcases h b hb with ⟨h1, h2⟩
      simp [h1, h2]
    show (if _ then _ else _) = _
    rw [hany, hfalse]
    simp
  · intro h
    have htrue : blocks.any
        (fun b => decide (b.type = BlockType.content ∨ b.type = BlockType.reasoning_content)) = true := by
      rw [List.any_eq_true]
      rcases h with ⟨b, hb, hor⟩
      exact ⟨b, hb, by simpa using hor⟩
    show (if _ then _ else _) = _
    rw [hany, htrue]
    simp

/-- Witness for C6: a block list with only a search block gets the
synthesized error block; one with a content block gets none. -/
theorem C6_end_synthesized_error_witness :
    (endHandler (fun s => s.length) 7 ⟨0, 0, none, 0, none, none, none⟩
        [⟨BlockType.search, "", BlockStatus.success, 1, some 0⟩]).1
      = [⟨BlockType.search, "", BlockStatus.success, 1, some 0⟩,
         ⟨BlockType.error, "common.error.noModelResponse", BlockStatus.error, 7, none⟩]
    ∧ (endHandler (fun s => s.length) 7 ⟨0, 0, none, 0, none, none, none⟩
        [⟨BlockType.content, "hey", BlockStatus.loading, 1, none⟩]).1
      = [⟨BlockType.content, "hey", BlockStatus.success, 1, none⟩] :=
  ⟨by
    have := (C6_end_synthesized_error (fun s => s.length) 7 ⟨0, 0, none, 0, none, none, none⟩
      [⟨BlockType.search, "", BlockStatus.success, 1, some 0⟩]).1 (by decide)
    simpa using this,
   by
    have := (C6_end_synthesized_error (fun s => s.length) 7 ⟨0, 0, none, 0, none, none, none⟩
      [⟨BlockType.content, "hey", BlockStatus.loading, 1, none⟩]).2
      ⟨_, List.mem_singleton_self _, Or.inl rfl⟩
    simpa using this⟩

/-- Total size of a run of history messages. -/
def sizeSum (l : List HistoryMsg) : Nat := (l.map HistoryMsg.size).sum

/-- Proof-side reformulation of the selection loop: the greedily taken
newest-first run, before the final `unshift` reversal. -/
def greedyTake (remaining : Int) : List HistoryMsg → Int → List HistoryMsg
  | [], _ => []
  | m :: rest, cur =>
      if cur + (m.size : Int) ≤ remaining then m :: greedyTake remaining rest (cur + (m.size : Int))
      else []

lemma selectLoop_eq_greedy (remaining : Int) :
    ∀ (l : List HistoryMsg) (cur : Int) (sel : List HistoryMsg),
      selectLoop remaining l cur sel = (greedyTake remaining l cur).reverse ++ sel := by
  intro l
  induction l with
  | nil => intro cur sel; simp [selectLoop, greedyTake]
  | cons m rest ih =>
      intro cur sel
      unfold selectLoop greedyTake
      split_ifs with h
      · rw [ih]
        simp
      · simp

lemma sizeSum_cons (m : HistoryMsg) (l : List HistoryMsg) :
    sizeSum (m :: l) = m.size + sizeSum l := by
  simp [sizeSum]

lemma greedy_spec (remaining : Int) :
    ∀ (l : List HistoryMsg) (cur : Int),
      ∃ k, k ≤ l.length ∧ greedyTake remaining l cur = l.take k
        ∧ (∀ j, 1 ≤ j → j ≤ k → cur + (sizeSum (l.take j) : Int) ≤ remaining)
        ∧ (k = l.length ∨ remaining < cur + (sizeSum (l.take (k + 1)) : Int)) := by
  intro l
  induction l with
  | nil =>
      intro cur
      exact ⟨0, by simp, by simp [greedyTake], by omega, Or.inl rfl⟩
  | cons m rest ih =>
      intro cur
      by_cases h : cur + (m.size : Int) ≤ remaining
      · rcases ih (cur + (m.size : Int)) with ⟨k, hk, heq, hle, hstop⟩
        refine ⟨k + 1, by simpa using hk, ?_, ?_, ?_⟩
        · simp [greedyTake, h, heq]
        · intro j h1 hj
          cases j with
          | zero => omega
          | succ j' =>
              rcases Nat.eq_zero_or_pos j' with hj' | hj'
              · subst hj'
                simpa [sizeSum_cons] using h
              · have := hle j' hj' (by omega)
                simp only [List.take_succ_cons, sizeSum_cons]
                push_cast
                push_cast at this
                omega
        · rcases hstop with hstop | hstop
          · exact Or.inl (by simp [hstop])
          · right
            simp only [List.take_succ_cons, sizeSum_cons]
            push_cast
            omega
      · refine ⟨0, by simp, by simp [greedyTake, h], by omega, ?_⟩
        right
        simpa [sizeSum_cons] using h

/-- C7: the history-selection loop walks the (filtered) history
newest-first, accumulates sizes greedily, stops at the first message
whose addition would exceed the remaining budget, and returns the
selected run in chronological order; in particular with
contextLength 1000, reservedTokens 100 and history sized 400/400/400
the last two messages are selected. -/
theorem C7_history_selection (uid cl rt : Nat) (msgs : List HistoryMsg)
    (hrem : 0 < (cl : Int) - (rt : Int)) :
    (∃ k, k ≤ ((msgs.filter (fun m => m.id != uid)).reverse).length
      ∧ selectContext uid cl rt msgs
          = (((msgs.filter (fun m => m.id != uid)).reverse).take k).reverse
      ∧ (∀ j, 1 ≤ j → j ≤ k →
          ((sizeSum (((msgs.filter (fun m => m.id != uid)).reverse).take j)) : Int)
            ≤ (cl : Int) - (rt : Int))
      ∧ (k = ((msgs.filter (fun m => m.id != uid)).reverse).length
          ∨ (cl : Int) - (rt : Int)
              < ((sizeSum (((msgs.filter (fun m => m.id != uid)).reverse).take (k + 1))) : Int)))
    ∧ selectContext 99 1000 100 [⟨1, 400⟩, ⟨2, 400⟩, ⟨3, 400⟩] = [⟨2, 400⟩, ⟨3, 400⟩] := by
  constructor
  · rcases greedy_spec ((cl : Int) - (rt : Int)) ((msgs.filter (fun m => m.id != uid)).reverse) 0
      with ⟨k, hk, heq, hle, hstop⟩
    refine ⟨k, hk, ?_, ?_, ?_⟩
    · unfold selectContext
      rw [if_pos hrem, selectLoop_eq_greedy, heq]
      simp
    · intro j h1 hj
      have := hle j h1 hj
      omega
    · rcases hstop with h | h
      · exact Or.inl h
      · exact Or.inr (by omega)
  · decide

/-- Witness for C7 at the concrete 400/400/400 instance. -/
theorem C7_history_selection_witness :
    ∃ k, k ≤ (([⟨1, 400⟩, ⟨2, 400⟩, ⟨3, 400⟩] :
        List HistoryMsg).filter (fun m => m.id != 99)).reverse.length
      ∧ selectContext 99 1000 100 [⟨1, 400⟩, ⟨2, 400⟩, ⟨3, 400⟩]
          = (((([⟨1, 400⟩, ⟨2, 400⟩, ⟨3, 400⟩] :
              List HistoryMsg).filter (fun m => m.id != 99)).reverse).take k).reverse
      ∧ (∀ j, 1 ≤ j → j ≤ k →
          ((sizeSum (((([⟨1, 400⟩, ⟨2, 400⟩, ⟨3, 400⟩] :
              List HistoryMsg).filter (fun m => m.id != 99)).reverse).take j)) : Int)
            ≤ (1000 : Int) - (100 : Int))
      ∧ (k = (([⟨1, 400⟩, ⟨2, 400⟩, ⟨3, 400⟩] :
            List HistoryMsg).filter (fun m => m.id != 99)).reverse.length
          ∨ (1000 : Int) - (100 : Int)
              < ((sizeSum (((([⟨1, 400⟩, ⟨2, 400⟩, ⟨3, 400⟩] :
                  List HistoryMsg).filter (fun m => m.id != 99)).reverse).take (k + 1))) : Int)) :=
  (C7_history_selection 99 1000 100 [⟨1, 400⟩, ⟨2, 400⟩, ⟨3, 400⟩] (by norm_num)).1

/-- C8: when reservedTokens ≥ contextLength, the selected context is
empty. -/
theorem C8_no_room_no_context (uid cl rt : Nat) (msgs : List HistoryMsg)
    (h : cl ≤ rt) :
    selectContext uid cl rt msgs = [] := by
  unfold selectContext
  rw [if_neg]
  intro hc
  omega

/-- Witness for C8. -/
theorem C8_no_room_no_context_witness :
    selectContext 0 100 100 [⟨1, 1⟩, ⟨2, 1⟩] = [] :=
  C8_no_room_no_context 0 100 100 [⟨1, 1⟩, ⟨2, 1⟩] (by norm_num)

lemma chain_mergeStep (acc : List FormattedMsg) (cur : FormattedMsg)
    (h : acc.Chain' (fun a b => a.role ≠ b.role)) :
    (mergeStep acc cur).Chain' (fun a b => a.role ≠ b.role) := by
  rcases List.eq_nil_or_concat acc with rfl | ⟨front, last, rfl⟩
  · simp [mergeStep]
  · simp only [List.concat_eq_append] at h ⊢
    unfold mergeStep
    rw [List.getLast?_concat]
    dsimp only
    split_ifs with hrole
    · rw [List.dropLast_concat]
      rw [List.chain'_append] at h ⊢
      refine ⟨h.1, by simp, ?_⟩
      intro x hx y hy
      simp at hy
      subst hy
      exact h.2.2 x hx last (by simp)
    · rw [List.chain'_append]
      refine ⟨h, by simp, ?_⟩
      intro x hx y hy
      simp at hx hy
      subst hx
      subst hy
      simpa using hrole

lemma chain_foldl_merge :
    ∀ (l acc : List FormattedMsg), acc.Chain' (fun a b => a.role ≠ b.role) →
      (l.foldl mergeStep acc).Chain' (fun a b => a.role ≠ b.role) := by
  intro l
  induction l with
  | nil => intro acc h; simpa using h
  | cons x rest ih =>
      intro acc h
      exact ih (mergeStep acc x) (chain_mergeStep acc x h)

lemma foldl_merge_of_chain :
    ∀ (l acc : List FormattedMsg),
      (acc ++ l).Chain' (fun a b => a.role ≠ b.role) →
      l.foldl mergeStep acc = acc ++ l := by
  intro l
  induction l with
  | nil => intro acc _; simp
  | cons x rest ih =>
      intro acc h
      have hstep : mergeStep acc x = acc ++ [x] := by
        rcases List.eq_nil_or_concat acc with rfl | ⟨front, last, rfl⟩
        · simp [mergeStep]
        · simp only [List.concat_eq_append] at h ⊢
          unfold mergeStep
          rw [List.getLast?_concat]
          dsimp only
          rw [if_neg]
          rw [List.chain'_append] at h
          exact h.2.2 last (by simp) x (by simp)
      show (List.foldl mergeStep (mergeStep acc x) rest) = acc ++ x :: rest
      rw [hstep, ih (acc ++ [x]) (by simpa using h)]
      simp

/-- C9: the role-merge pass is idempotent — applying it twice yields the
same list as applying it once. -/
theorem C9_merge_idempotent (msgs : List FormattedMsg) :
    mergePass (mergePass msgs) = mergePass msgs := by
  have hchain : (mergePass msgs).Chain' (fun a b => a.role ≠ b.role) :=
    chain_foldl_merge msgs [] (by simp)
  have := foldl_merge_of_chain (mergePass msgs) [] (by simpa using hchain)
  simpa [mergePass] using this

/-- C10: when the search backend throws, `startStreamSearch` returns
normally (no exception propagates) with an empty result set; the search
block ends in status `error` carrying the stringified error, and the
final persisted snapshot is exactly that block list. -/
theorem C10_search_failure_degrades (now : Int) (e : String) (blocks : List Block)
    (outcome : Except String (List SearchResult)) (h : outcome = Except.error e) :
    ∃ r : SearchRunResult,
      startStreamSearchModel now true outcome blocks = Except.ok r
      ∧ r.results = []
      ∧ r.blocks = ⟨BlockType.search, e, BlockStatus.error, now, some 0⟩ :: blocks
      ∧ r.persisted.getLast? = some r.blocks
      ∧ r.attachments = [] := by
  subst h
  exact ⟨_, rfl, rfl, rfl, rfl, rfl⟩

/-- Witness for C10 at a concrete failing invocation. -/
theorem C10_search_failure_degrades_witness :
    ∃ r : SearchRunResult,
      startStreamSearchModel 3 true (Except.error "Error: engine down") [] = Except.ok r
      ∧ r.results = []
      ∧ r.blocks = [⟨BlockType.search, "Error: engine down", BlockStatus.error, 3, some 0⟩]
      ∧ r.persisted.getLast? = some r.blocks
      ∧ r.attachments = [] :=
  C10_search_failure_degrades 3 "Error: engine down" [] _ rfl

lemma generating_handleMessageError (now : Int) (mid : Nat) (err : String) (st : ThreadState) :
    (handleMessageError now mid err st).generating = st.generating := by
  unfold handleMessageError
  cases h : getStoredMessage st mid <;> simp [updateStoredMessage]

/-- C4 (amended): an assembly exception in `startStreamCompletion` is
finalized through the very same store transformation as a stream error
event (`handleMessageError`) and is re-raised — but, unlike the stream
error event handler, the generating entry is left in the table. -/
theorem C4_assembly_error_path (now : Int) (cid : Nat) (e : String) (st : ThreadState)
    (mid : Nat) (entry : GenEntry)
    (hfind : st.generating.find? (fun p => p.2.conversationId == cid) = some (mid, entry)) :
    startStreamCompletionModel now cid (Except.error e) st
        = (handleMessageError now mid e st, some e)
      ∧ (startStreamCompletionModel now cid (Except.error e) st).1.generating = st.generating
      ∧ (streamErrorEv now mid e st).conversations
          = (startStreamCompletionModel now cid (Except.error e) st).1.conversations := by
  have h1 : startStreamCompletionModel now cid (Except.error e) st
      = (handleMessageError now mid e st, some e) := by
    unfold startStreamCompletionModel
    rw [hfind]
  refine ⟨h1, ?_, ?_⟩
  · rw [h1]
    exact generating_handleMessageError now mid e st
  · rw [h1]
    have hmem : (mid, entry) ∈ st.generating := List.mem_of_find?_eq_some hfind
    have hsome : ∃ p, st.generating.find? (fun p => p.1 == mid) = some p := by
      rw [← Option.isSome_iff_exists]
      exact List.find?_isSome.mpr ⟨(mid, entry), hmem, by simp⟩
    rcases hsome with ⟨p, hp⟩
    unfold streamErrorEv
    rw [hp]

/-- Witness for C4 at a concrete state with one in-flight generation. -/
theorem C4_assembly_error_path_witness :
    startStreamCompletionModel 9 0 (Except.error "boom")
        ⟨[⟨0, [⟨5, MsgRole.assistant, MsgStatus.pending, [], ⟨0, 0, 0, JsNum.nan⟩⟩]⟩],
         [(5, ⟨0, 0, none, 0, none, none, none⟩)]⟩
        = (handleMessageError 9 5 "boom"
            ⟨[⟨0, [⟨5, MsgRole.assistant, MsgStatus.pending, [], ⟨0, 0, 0, JsNum.nan⟩⟩]⟩],
             [(5, ⟨0, 0, none, 0, none, none, none⟩)]⟩, some "boom")
      ∧ (startStreamCompletionModel 9 0 (Except.error "boom")
          ⟨[⟨0, [⟨5, MsgRole.assistant, MsgStatus.pending, [], ⟨0, 0, 0, JsNum.nan⟩⟩]⟩],
           [(5, ⟨0, 0, none, 0, none, none, none⟩)]⟩).1.generating
          = [(5, ⟨0, 0, none, 0, none, none, none⟩)]
      ∧ (streamErrorEv 9 5 "boom"
          ⟨[⟨0, [⟨5, MsgRole.assistant, MsgStatus.pending, [], ⟨0, 0, 0, JsNum.nan⟩⟩]⟩],
           [(5, ⟨0, 0, none, 0, none, none, none⟩)]⟩).conversations
          = (startStreamCompletionModel 9 0 (Except.error "boom")
              ⟨[⟨0, [⟨5, MsgRole.assistant, MsgStatus.pending, [], ⟨0, 0, 0, JsNum.nan⟩⟩]⟩],
               [(5, ⟨0, 0, none, 0, none, none, none⟩)]⟩).1.conversations := by
  have h := C4_assembly_error_path 9 0 "boom"
      ⟨[⟨0, [⟨5, MsgRole.assistant, MsgStatus.pending, [], ⟨0, 0, 0, JsNum.nan⟩⟩]⟩],
       [(5, ⟨0, 0, none, 0, none, none, none⟩)]⟩ 5 ⟨0, 0, none, 0, none, none, none⟩ (by decide)
  exact ⟨h.1, h.2.1.trans rfl, h.2.2⟩

/-- Counterexample to C4 as stated: after a caught assembly exception
the generating entry is still in the table, whereas the stream-error
event path removes it. -/
theorem C4_counterexample :
    (startStreamCompletionModel 9 0 (Except.error "boom")
        ⟨[⟨0, [⟨5, MsgRole.assistant, MsgStatus.pending, [], ⟨0, 0, 0, JsNum.nan⟩⟩]⟩],
         [(5, ⟨0, 0, none, 0, none, none, none⟩)]⟩).1.generating
        = [(5, ⟨0, 0, none, 0, none, none, none⟩)]
    ∧ (streamErrorEv 9 5 "boom"
        ⟨[⟨0, [⟨5, MsgRole.assistant, MsgStatus.pending, [], ⟨0, 0, 0, JsNum.nan⟩⟩]⟩],
         [(5, ⟨0, 0, none, 0, none, none, none⟩)]⟩).generating = []
    ∧ ([(5, (⟨0, 0, none, 0, none, none, none⟩ : GenEntry))] : List (Nat × GenEntry)) ≠ [] := by
  refine ⟨by decide, by decide, by simp⟩

section StepLastCases

variable (now : Int) (c r : String) (lb : Block)

lemma stepLast_nil_nil (hc : c = "") (hr : r = "") : stepLast now c r lb = [lb] := by
  simp [stepLast, hc, hr]

lemma stepLast_r_match (hc : c = "") (hr : r ≠ "") (ht : lb.type = BlockType.reasoning_content) :
    stepLast now c r lb = [{ lb with content := lb.content ++ r }] := by
  simp [stepLast, hc, hr, ht]

lemma stepLast_r_push (hc : c = "") (hr : r ≠ "") (ht : lb.type ≠ BlockType.reasoning_content) :
    stepLast now c r lb
      = [{ lb with status := BlockStatus.success },
         ⟨BlockType.reasoning_content, r, BlockStatus.loading, now, none⟩] := by
  simp [stepLast, hc, hr, ht]

lemma stepLast_c_match (hc : c ≠ "") (hr : r = "") (ht : lb.type = BlockType.content) :
    stepLast now c r lb = [{ lb with content := lb.content ++ c }] := by
  simp [stepLast, hc, hr, ht]

lemma stepLast_c_push (hc : c ≠ "") (hr : r = "") (ht : lb.type ≠ BlockType.content) :
    stepLast now c r lb
      = [{ lb with status := BlockStatus.success },
         ⟨BlockType.content, c, BlockStatus.loading, now, none⟩] := by
  have ht2 : ¬ (BlockType.content = BlockType.reasoning_content) := by decide
  simp [stepLast, hc, hr, ht, ht2]

lemma stepLast_both_content (hc : c ≠ "") (hr : r ≠ "") (ht : lb.type = BlockType.content) :
    stepLast now c r lb
      = [{ lb with content := lb.content ++ c, status := BlockStatus.success },
         ⟨BlockType.reasoning_content, r, BlockStatus.loading, now, none⟩] := by
  have ht2 : ¬ (BlockType.content = BlockType.reasoning_content) := by decide
  simp [stepLast, hc, hr, ht, ht2]

lemma stepLast_both_reasoning (hc : c ≠ "") (hr : r ≠ "")
    (ht : lb.type = BlockType.reasoning_content) :
    stepLast now c r lb
      = [{ lb with content := lb.content ++ r, status := BlockStatus.success },
         ⟨BlockType.content, c, BlockStatus.loading, now, none⟩] := by
  have ht2 : ¬ (BlockType.reasoning_content = BlockType.content) := by decide
  simp [stepLast, hc, hr, ht, ht2]

lemma stepLast_both_other (hc : c ≠ "") (hr : r ≠ "")
    (htc : lb.type ≠ BlockType.content) (htr : lb.type ≠ BlockType.reasoning_content) :
    stepLast now c r lb
      = [{ lb with status := BlockStatus.success },
         ⟨BlockType.content, c, BlockStatus.loading, now, none⟩,
         ⟨BlockType.reasoning_content, r, BlockStatus.loading, now, none⟩] := by
  simp [stepLast, hc, hr, htc, htr]

end StepLastCases

/-- Where an output block of a token event may draw its text from:
either an input block (possibly restatused, and extended by the event's
content only when it is a content block / by the event's reasoning text
only when it is a reasoning block), or a fresh single-source block. -/
def tokenProvenance (c r : String) (blocks : List Block) (b : Block) : Prop :=
  (∃ lb ∈ blocks, b.type = lb.type ∧
    (b.content = lb.content
      ∨ (b.type = BlockType.content ∧ b.content = lb.content ++ c)
      ∨ (b.type = BlockType.reasoning_content ∧ b.content = lb.content ++ r)))
  ∨ (b.type = BlockType.content ∧ b.content = c)
  ∨ (b.type = BlockType.reasoning_content ∧ b.content = r)

lemma processResponse_concat (now : Int) (c r : String) (l : List Block) (lb : Block) :
    processResponse now c r (l ++ [lb]) = l ++ stepLast now c r lb := by
  unfold processResponse
  rw [List.getLast?_concat]
  dsimp only
  rw [List.dropLast_concat]

/-- C2 (amended): (a) for any token event, content text is only ever
appended to content-typed blocks and reasoning text to reasoning-typed
blocks (so the two never share a block); (b) for events carrying at
most one of the two fields, the at-most-one-trailing-`loading`
invariant is preserved; (c) for such events, whenever a new block is
appended to a non-empty list the previous trailing block is set to
`success`.  (An event carrying both fields can violate (b): the
reasoning branch closes against the stale captured block.) -/
theorem C2_token_invariants (now : Int) (c r : String) (blocks : List Block) :
    (∀ b ∈ processResponse now c r blocks, tokenProvenance c r blocks b)
    ∧ ((c = "" ∨ r = "") → trailingLoadingOnly blocks →
        trailingLoadingOnly (processResponse now c r blocks))
    ∧ ((c = "" ∨ r = "") → blocks.length < (processResponse now c r blocks).length →
        ∀ lb', blocks.getLast? = some lb' →
          ∃ b, (processResponse now c r blocks)[blocks.length - 1]? = some b
            ∧ b.status = BlockStatus.success) := by
  rcases List.eq_nil_or_concat blocks with rfl | ⟨l, lb, rfl⟩
  · refine ⟨?_, ?_, ?_⟩
    · intro b hb
      by_cases hc : c = "" <;> by_cases hr : r = "" <;>
        simp [processResponse, hc, hr] at hb
      · exact Or.inr (Or.inr ⟨by rw [hb], by rw [hb]⟩)
      · exact Or.inr (Or.inl ⟨by rw [hb], by rw [hb]⟩)
      · rcases hb with hb | hb
        · exact Or.inr (Or.inl ⟨by rw [hb], by rw [hb]⟩)
        · exact Or.inr (Or.inr ⟨by rw [hb], by rw [hb]⟩)
    · intro hOne _
      by_cases hc : c = "" <;> by_cases hr : r = "" <;>
        simp [processResponse, hc, hr, trailingLoadingOnly]
      rcases hOne with h | h
      · exact absurd h hc
      · exact absurd h hr
    · intro _ _ lb' hlb'
      simp at hlb'
  · simp only [List.concat_eq_append] at *
    have hPR := processResponse_concat now c r l lb
    have hmemlb : lb ∈ l ++ [lb] := by simp
    by_cases hc : c = "" <;> by_cases hr : r = ""
    · -- no fields
      rw [stepLast_nil_nil now c r lb hc hr] at hPR
      refine ⟨?_, ?_, ?_⟩
      · intro b hb
        rw [hPR] at hb
        rcases List.mem_append.mp hb with hbl | hbl
        · exact Or.inl ⟨b, by simp [hbl], rfl, Or.inl rfl⟩
        · simp at hbl
          rw [hbl]
          exact Or.inl ⟨lb, hmemlb, rfl, Or.inl rfl⟩
      · intro _ hInv
        rw [hPR]
        exact hInv
      · intro _ hLen _ _
        rw [hPR] at hLen
        simp at hLen
    · -- reasoning only
      by_cases ht : lb.type = BlockType.reasoning_content
      · rw [stepLast_r_match now c r lb hc hr ht] at hPR
        refine ⟨?_, ?_, ?_⟩
        · intro b hb
          rw [hPR] at hb
          rcases List.mem_append.mp hb with hbl | hbl
          · exact Or.inl ⟨b, by simp [hbl], rfl, Or.inl rfl⟩
          · simp at hbl
            subst hbl
            exact Or.inl ⟨lb, hmemlb, rfl, Or.inr (Or.inr ⟨ht, rfl⟩)⟩
        · intro _ hInv
          rw [hPR]
          intro b hb
          rw [List.dropLast_concat] at hb
          exact hInv b (by rw [List.dropLast_concat]; exact hb)
        · intro _ hLen _ _
          rw [hPR] at hLen
          simp at hLen
      · rw [stepLast_r_push now c r lb hc hr ht] at hPR
        refine ⟨?_, ?_, ?_⟩
        · intro b hb
          rw [hPR] at hb
          rcases List.mem_append.mp hb with hbl | hbl
          · exact Or.inl ⟨b, by simp [hbl], rfl, Or.inl rfl⟩
          · simp at hbl
            rcases hbl with hbl | hbl
            · subst hbl
              exact Or.inl ⟨lb, hmemlb, rfl, Or.inl rfl⟩
            · subst hbl
              exact Or.inr (Or.inr ⟨rfl, rfl⟩)
        · intro _ hInv
          rw [hPR]
          have hsplit : l ++ [{ lb with status := BlockStatus.success },
              (⟨BlockType.reasoning_content, r, BlockStatus.loading, now, none⟩ : Block)]
              = (l ++ [{ lb with status := BlockStatus.success }])
                ++ [(⟨BlockType.reasoning_content, r, BlockStatus.loading, now, none⟩ : Block)] := by
            simp
          rw [hsplit]
          intro b hb
          rw [List.dropLast_concat] at hb
          rcases List.mem_append.mp hb with hbl | hbl
          · exact hInv b (by rw [List.dropLast_concat]; exact hbl)
          · simp at hbl
            subst hbl
            simp
        · intro _ _ lb' hlb'
          rw [List.getLast?_concat] at hlb'
          refine ⟨{ lb with status := BlockStatus.success }, ?_, rfl⟩
          rw [hPR]
          have hidx : (l ++ [lb]).length - 1 = l.length := by simp
          rw [hidx, List.getElem?_append_right (Nat.le_refl _)]
          simp
    · -- content only
      by_cases ht : lb.type = BlockType.content
      · rw [stepLast_c_match now c r lb hc hr ht] at hPR
        refine ⟨?_, ?_, ?_⟩
        · intro b hb
          rw [hPR] at hb
          rcases List.mem_append.mp hb with hbl | hbl
          · exact Or.inl ⟨b, by simp [hbl], rfl, Or.inl rfl⟩
          · simp at hbl
            subst hbl
            exact Or.inl ⟨lb, hmemlb, rfl, Or.inr (Or.inl ⟨ht, rfl⟩)⟩
        · intro _ hInv
          rw [hPR]
          intro b hb
          rw [List.dropLast_concat] at hb
          exact hInv b (by rw [List.dropLast_concat]; exact hb)
        · intro _ hLen _ _
          rw [hPR] at hLen
          simp at hLen
      · rw [stepLast_c_push now c r lb hc hr ht] at hPR
        refine ⟨?_, ?_, ?_⟩
        · intro b hb
          rw [hPR] at hb
          rcases List.mem_append.mp hb with hbl | hbl
          · exact Or.inl ⟨b, by simp [hbl], rfl, Or.inl rfl⟩
          · simp at hbl
            rcases hbl with hbl | hbl
            · subst hbl
              exact Or.inl ⟨lb, hmemlb, rfl, Or.inl rfl⟩
            · subst hbl
              exact Or.inr (Or.inl ⟨rfl, rfl⟩)
        · intro _ hInv
          rw [hPR]
          have hsplit : l ++ [{ lb with status := BlockStatus.success },
              (⟨BlockType.content, c, BlockStatus.loading, now, none⟩ : Block)]
              = (l ++ [{ lb with status := BlockStatus.success }])
                ++ [(⟨BlockType.content, c, BlockStatus.loading, now, none⟩ : Block)] := by
            simp
          rw [hsplit]
          intro b hb
          rw [List.dropLast_concat] at hb
          rcases List.mem_append.mp hb with hbl | hbl
          · exact hInv b (by rw [List.dropLast_concat]; exact hbl)
          · simp at hbl
            subst hbl
            simp
        · intro _ _ lb' hlb'
          refine ⟨{ lb with status := BlockStatus.success }, ?_, rfl⟩
          rw [hPR]
          have hidx : (l ++ [lb]).length - 1 = l.length := by simp
          rw [hidx, List.getElem?_append_right (Nat.le_refl _)]
          simp
    · -- both fields: only the provenance part is claimed
      refine ⟨?_, ?_, ?_⟩
      · intro b hb
        by_cases htc : lb.type = BlockType.content
        · rw [stepLast_both_content now c r lb hc hr htc] at hPR
          rw [hPR] at hb
          rcases List.mem_append.mp hb with hbl | hbl
          · exact Or.inl ⟨b, by simp [hbl], rfl, Or.inl rfl⟩
          · simp at hbl
            rcases hbl with hbl | hbl
            · subst hbl
              exact Or.inl ⟨lb, hmemlb, rfl, Or.inr (Or.inl ⟨htc, rfl⟩)⟩
            · subst hbl
              exact Or.inr (Or.inr ⟨rfl, rfl⟩)
        · by_cases htr : lb.type = BlockType.reasoning_content
          · rw [stepLast_both_reasoning now c r lb hc hr htr] at hPR
            rw [hPR] at hb
            rcases List.mem_append.mp hb with hbl | hbl
            · exact Or.inl ⟨b, by simp [hbl], rfl, Or.inl rfl⟩
            · simp at hbl
              rcases hbl with hbl | hbl
              · subst hbl
                exact Or.inl ⟨lb, hmemlb, rfl, Or.inr (Or.inr ⟨htr, rfl⟩)⟩
              · subst hbl
                exact Or.inr (Or.inl ⟨rfl, rfl⟩)
          · rw [stepLast_both_other now c r lb hc hr htc htr] at hPR
            rw [hPR] at hb
            rcases List.mem_append.mp hb with hbl | hbl
            · exact Or.inl ⟨b, by simp [hbl], rfl, Or.inl rfl⟩
            · simp at hbl
              rcases hbl with hbl | hbl | hbl
              · subst hbl
                exact Or.inl ⟨lb, hmemlb, rfl, Or.inl rfl⟩
              · subst hbl
                exact Or.inr (Or.inl ⟨rfl, rfl⟩)
              · subst hbl
                exact Or.inr (Or.inr ⟨rfl, rfl⟩)
      · intro hOne _
        rcases hOne with h | h
        · exact absurd h hc
        · exact absurd h hr
      · intro hOne _ _ _
        rcases hOne with h | h
        · exact absurd h hc
        · exact absurd h hr

/-- Witness for C2: a single-field event on a loading content block
keeps the invariant, and appending a new block closes the previous one. -/
theorem C2_token_invariants_witness :
    trailingLoadingOnly (processResponse 0 "" "think"
        [⟨BlockType.content, "x", BlockStatus.loading, 0, none⟩])
    ∧ ∃ b, (processResponse 0 "" "think"
        [⟨BlockType.content, "x", BlockStatus.loading, 0, none⟩])[0]? = some b
          ∧ b.status = BlockStatus.success :=
  ⟨(C2_token_invariants 0 "" "think"
      [⟨BlockType.content, "x", BlockStatus.loading, 0, none⟩]).2.1 (Or.inl rfl) (by decide),
   (C2_token_invariants 0 "" "think"
      [⟨BlockType.content, "x", BlockStatus.loading, 0, none⟩]).2.2 (Or.inl rfl) (by decide)
      ⟨BlockType.content, "x", BlockStatus.loading, 0, none⟩ (by decide)⟩

/-- Counterexample to C2 as stated: one token event carrying both
content and reasoning text, applied to an empty block list, leaves two
`loading` blocks (the closing rule never fires because the captured
`lastBlock` was undefined). -/
theorem C2_counterexample :
    processResponse 0 "a" "b" []
      = [⟨BlockType.content, "a", BlockStatus.loading, 0, none⟩,
         ⟨BlockType.reasoning_content, "b", BlockStatus.loading, 0, none⟩]
    ∧ ¬ trailingLoadingOnly (processResponse 0 "a" "b" []) := by
  constructor
  · decide
  · decide

lemma find?_map_of_id_eq {α : Type} (idf : α → Nat) (F : α → α)
    (hF : ∀ a, idf (F a) = idf a) (x : Nat) :
    ∀ l : List α,
      (l.map F).find? (fun a => idf a == x) = (l.find? (fun a => idf a == x)).map F := by
  intro l
  induction l with
  | nil => simp
  | cons a t ih =>
      simp only [List.map_cons, List.find?]
      rw [hF a]
      cases h : (idf a == x) with
      | true => simp [h]
      | false => simp [h, ih]

lemma find?_of_nodup {α : Type} (idf : α → Nat) :
    ∀ (l : List α) (a : α), (l.map idf).Nodup → a ∈ l →
      l.find? (fun b => idf b == idf a) = some a := by
  intro l
  induction l with
  | nil => intro a _ h; simp at h
  | cons b t ih =>
      intro a hnd ha
      rw [List.map_cons] at hnd
      have hnd' := List.nodup_cons.mp hnd
      rcases List.mem_cons.mp ha with rfl | hat
      · exact List.find?_cons_of_pos _ (by simp)
      · have hne : idf b ≠ idf a := by
          intro he
          exact hnd'.1 (he ▸ List.mem_map_of_mem idf hat)
        rw [List.find?_cons_of_neg _ (by simp [hne]), ih a hnd'.2 hat]

lemma allMessages_update (mid : Nat) (f : StoredMessage → StoredMessage) (st : ThreadState) :
    allMessages (updateStoredMessage mid f st)
      = (allMessages st).map (fun m => if m.id = mid then f m else m) := by
  simp [allMessages, updateStoredMessage, List.map_flatten, List.map_map]
  rfl

lemma getStored_id (st : ThreadState) (x : Nat) (m : StoredMessage)
    (h : getStoredMessage st x = some m) : m.id = x := by
  have := List.find?_some h
  simpa using this

lemma getStored_handle (now : Int) (i x : Nat) (err : String) (st : ThreadState) :
    getStoredMessage (handleMessageError now i err st) x
      = (getStoredMessage st x).map
          (fun m => if m.id = i then msgUpd now err m else m) := by
  unfold handleMessageError
  cases h : getStoredMessage st i with
  | none =>
      have hall := List.find?_eq_none.mp h
      cases hx : getStoredMessage st x with
      | none => simp [hx]
      | some m =>
          have hmem : m ∈ allMessages st := List.mem_of_find?_eq_some hx
          have hne : m.id ≠ i := by
            intro he
            exact hall m hmem (by simp [he])
          simp [hx, hne]
  | some _ =>
      show getStoredMessage (updateStoredMessage i (msgUpd now err) st) x = _
      unfold getStoredMessage
      rw [allMessages_update]
      rw [find?_map_of_id_eq StoredMessage.id _
        (fun m => by by_cases hmi : m.id = i <;> simp [hmi, msgUpd]) x]

/-- The session-interrupted finalizations applied during recovery, as a
fold over the affected message ids. -/
def applyAll (now : Int) (err : String) (ids : List Nat) (st : ThreadState) : ThreadState :=
  ids.foldl (fun acc i => handleMessageError now i err acc) st

lemma applyAll_cons (now : Int) (err : String) (i : Nat) (t : List Nat) (st : ThreadState) :
    applyAll now err (i :: t) st = applyAll now err t (handleMessageError now i err st) := rfl

lemma applyAll_append (now : Int) (err : String) (a b : List Nat) (st : ThreadState) :
    applyAll now err (a ++ b) st = applyAll now err b (applyAll now err a st) := by
  unfold applyAll
  rw [List.foldl_append]

lemma getStored_applyAll_of_not_mem (now : Int) (err : String) :
    ∀ (ids : List Nat) (st : ThreadState) (x : Nat), x ∉ ids →
      getStoredMessage (applyAll now err ids st) x = getStoredMessage st x := by
  intro ids
  induction ids with
  | nil => intro st x _; rfl
  | cons i t ih =>
      intro st x hx
      have hne : i ≠ x := by
        intro he
        exact hx (by simp [he])
      rw [applyAll_cons, ih _ x (fun hmem => hx (by simp [hmem])), getStored_handle]
      cases hx2 : getStoredMessage st x with
      | none => rfl
      | some m =>
          have hid : m.id = x := getStored_id st x m hx2
          simp [hid, Ne.symm hne]

lemma getStored_applyAll_once (now : Int) (err : String)
    (pre post : List Nat) (x : Nat) (st : ThreadState) (m : StoredMessage)
    (hpre : x ∉ pre) (hpost : x ∉ post)
    (hm : getStoredMessage st x = some m) :
    getStoredMessage (applyAll now err (pre ++ x :: post) st) x
      = some (msgUpd now err m) := by
  rw [applyAll_append, applyAll_cons,
    getStored_applyAll_of_not_mem now err post _ x hpost, getStored_handle,
    getStored_applyAll_of_not_mem now err pre st x hpre, hm]
  have hid : m.id = x := getStored_id st x m hm
  simp [hid]

lemma conversations_handle (now : Int) (i : Nat) (err : String) (st : ThreadState) :
    (handleMessageError now i err st).conversations
      = st.conversations.map (fun c =>
          { c with
            messages := c.messages.map (fun m => if m.id = i then msgUpd now err m else m) }) := by
  unfold handleMessageError
  cases h : getStoredMessage st i with
  | some m => rfl
  | none =>
      have hall := List.find?_eq_none.mp h
      show st.conversations = _
      conv_lhs => rw [← List.map_id st.conversations]
      apply List.map_congr_left
      intro c hc
      have hmsgs : c.messages.map (fun m => if m.id = i then msgUpd now err m else m)
          = c.messages := by
        conv_rhs => rw [← List.map_id c.messages]
        apply List.map_congr_left
        intro m hm
        have hmem : m ∈ allMessages st := by
          simp only [allMessages, List.mem_flatten]
          exact ⟨c.messages, by simpa using ⟨c, hc, rfl⟩, hm⟩
        have hne : ¬ (m.id == i) = true := hall m hmem
        simp at hne
        simp [hne]
      rcases c with ⟨cid, msgs⟩
      simp only [List.map_id]
      simp only at hmsgs
      simp [hmsgs]

lemma generating_applyAll (now : Int) (err : String) :
    ∀ (ids : List Nat) (st : ThreadState),
      (applyAll now err ids st).generating = st.generating := by
  intro ids
  induction ids with
  | nil => intro st; rfl
  | cons i t ih =>
      intro st
      rw [applyAll_cons, ih, generating_handleMessageError]

lemma lookup_applyAll_untouched (now : Int) (err : String) :
    ∀ (ids : List Nat) (st : ThreadState) (c : Conversation),
      st.conversations.find? (fun c2 => c2.id == c.id) = some c →
      (∀ i ∈ ids, ∀ m ∈ c.messages, m.id ≠ i) →
      (applyAll now err ids st).conversations.find? (fun c2 => c2.id == c.id) = some c := by
  intro ids
  induction ids with
  | nil => intro st c h _; exact h
  | cons i t ih =>
      intro st c h hdis
      rw [applyAll_cons]
      apply ih
      · rw [conversations_handle,
          find?_map_of_id_eq Conversation.id
            (fun c2 => { c2 with
              messages := c2.messages.map (fun m => if m.id = i then msgUpd now err m else m) })
            (fun c2 => rfl) c.id, h]
        have hmsgs : c.messages.map (fun m => if m.id = i then msgUpd now err m else m)
            = c.messages := by
          conv_rhs => rw [← List.map_id c.messages]
          apply List.map_congr_left
          intro m hm
          have := hdis i (by simp) m hm
          simp [this]
        rcases c with ⟨cid, msgs⟩
        simp only at hmsgs
        simp [hmsgs]
      · intro j hj m hm
        exact hdis j (by simp [hj]) m hm

/-- The pending-assistant message ids of a conversation's first
storage page. -/
def idsOf (c : Conversation) : List Nat :=
  (((c.messages.drop 0).take 1000).filter
    (fun m => m.role == MsgRole.assistant && m.status == MsgStatus.pending)).map
    StoredMessage.id

lemma initStep_eq (now : Int) (acc : ThreadState) (conv c : Conversation)
    (h : acc.conversations.find? (fun c2 => c2.id == conv.id) = some c) :
    initStep now acc conv = applyAll now "common.error.sessionInterrupted" (idsOf c) acc := by
  unfold initStep
  rw [h]
  dsimp only
  unfold applyAll idsOf
  rw [List.foldl_map]

lemma init_go (now : Int) :
    ∀ (cs : List Conversation) (acc : ThreadState),
      (∀ c ∈ cs, acc.conversations.find? (fun c2 => c2.id == c.id) = some c) →
      List.Pairwise (fun c1 c2 => ∀ i ∈ idsOf c1, ∀ m ∈ c2.messages, m.id ≠ i) cs →
      cs.foldl (initStep now) acc
        = applyAll now "common.error.sessionInterrupted" ((cs.map idsOf).flatten) acc := by
  intro cs
  induction cs with
  | nil => intro acc _ _; rfl
  | cons c rest ih =>
      intro acc hfind hpair
      rw [List.foldl_cons, initStep_eq now acc c c (hfind c (by simp)),
        List.map_cons, List.flatten_cons, applyAll_append]
      apply ih
      · intro c2 hc2
        apply lookup_applyAll_untouched
        · exact hfind c2 (by simp [hc2])
        · intro i hi m hm
          exact (List.pairwise_cons.mp hpair).1 c2 hc2 i hi m hm
      · exact (List.pairwise_cons.mp hpair).2

/-- C5 (amended): recovery finalizes, exactly once, every `pending`
assistant message among the first 1000 messages of each of the first
1000 conversations: its status becomes `error` and the
session-interrupted marker block is appended to its (otherwise
untouched) blocks.  Store ids are assumed unique. -/
theorem C5_recovery_finalizes_pending (now : Int) (st : ThreadState)
    (hconvIds : (st.conversations.map Conversation.id).Nodup)
    (hmsgIds : ((st.conversations.map (fun c => c.messages.map StoredMessage.id)).flatten).Nodup)
    (conv : Conversation) (hconv : conv ∈ st.conversations.take 1000)
    (m : StoredMessage) (hmem : m ∈ conv.messages.take 1000)
    (hrole : m.role = MsgRole.assistant) (hstatus : m.status = MsgStatus.pending) :
    getStoredMessage (initializeUnfinishedMessages now st) m.id
      = some { m with
          status := MsgStatus.error
          blocks := markErrorBlocks now "common.error.sessionInterrupted" m.blocks } := by
  have hconvmem : conv ∈ st.conversations := (List.take_sublist 1000 st.conversations).subset hconv
  have hmmem : m ∈ conv.messages := (List.take_sublist 1000 conv.messages).subset hmem
  have hflat := List.nodup_flatten.mp hmsgIds
  have hpairs : st.conversations.Pairwise
      (fun c1 c2 => (c1.messages.map StoredMessage.id).Disjoint (c2.messages.map StoredMessage.id)) := by
    have h2 := hflat.2
    rwa [List.pairwise_map] at h2
  have hsubIds : ∀ c : Conversation, idsOf c ⊆ c.messages.map StoredMessage.id := by
    intro c j hj
    unfold idsOf at hj
    simp only [List.drop_zero] at hj
    rcases List.mem_map.mp hj with ⟨mm, hmm, rfl⟩
    exact List.mem_map_of_mem _
      (((List.filter_sublist _).trans (List.take_sublist _ _)).subset hmm)
  have hRfull : st.conversations.Pairwise
      (fun c1 c2 => ∀ i ∈ idsOf c1, ∀ m2 ∈ c2.messages, m2.id ≠ i) := by
    apply hpairs.imp
    intro c1 c2 hdisj i hi m2 hm2 he
    exact hdisj (hsubIds c1 hi) (by rw [← he]; exact List.mem_map_of_mem _ hm2)
  have hRtake : ((st.conversations.drop 0).take 1000).Pairwise
      (fun c1 c2 => ∀ i ∈ idsOf c1, ∀ m2 ∈ c2.messages, m2.id ≠ i) := by
    simp only [List.drop_zero]
    exact hRfull.sublist (List.take_sublist _ _)
  have hfind : ∀ c ∈ (st.conversations.drop 0).take 1000,
      st.conversations.find? (fun c2 => c2.id == c.id) = some c := by
    intro c hc
    simp only [List.drop_zero] at hc
    exact find?_of_nodup Conversation.id st.conversations c hconvIds
      ((List.take_sublist _ _).subset hc)
  have hinit : initializeUnfinishedMessages now st
      = applyAll now "common.error.sessionInterrupted"
          ((((st.conversations.drop 0).take 1000).map idsOf).flatten) st := by
    unfold initializeUnfinishedMessages
    exact init_go now _ st hfind hRtake
  have hmP : m.id ∈ (((st.conversations.drop 0).take 1000).map idsOf).flatten := by
    simp only [List.mem_flatten]
    refine ⟨idsOf conv, List.mem_map_of_mem idsOf (by simpa using hconv), ?_⟩
    unfold idsOf
    simp only [List.drop_zero]
    apply List.mem_map_of_mem
    rw [List.mem_filter]
    exact ⟨hmem, by simp [hrole, hstatus]⟩
  have hPnd : ((((st.conversations.drop 0).take 1000).map idsOf).flatten).Nodup := by
    rw [List.nodup_flatten]
    constructor
    · intro l hl
      rcases List.mem_map.mp hl with ⟨c, hc, rfl⟩
      have hcmem : c ∈ st.conversations :=
        (List.take_sublist _ _).subset (by simpa using hc)
      have hcnd : (c.messages.map StoredMessage.id).Nodup :=
        hflat.1 _ (List.mem_map_of_mem _ hcmem)
      refine hcnd.sublist ?_
      unfold idsOf
      simp only [List.drop_zero]
      exact ((List.filter_sublist _).trans (List.take_sublist _ _)).map _
    · rw [List.pairwise_map]
      apply hRtake.imp
      intro c1 c2 hR
      intro a ha hb
      rcases List.mem_map.mp hb with ⟨m2, hm2, he⟩
      simp only [List.drop_zero] at hm2
      exact hR a ha m2
        (((List.filter_sublist _).trans (List.take_sublist _ _)).subset hm2) he
  have hallnd : ((allMessages st).map StoredMessage.id).Nodup := by
    rw [allMessages, List.map_flatten, List.map_map]
    simpa using hmsgIds
  have hmemAll : m ∈ allMessages st := by
    rw [allMessages]
    simp only [List.mem_flatten]
    exact ⟨conv.messages, List.mem_map_of_mem _ hconvmem, hmmem⟩
  have hgot : getStoredMessage st m.id = some m :=
    find?_of_nodup StoredMessage.id (allMessages st) m hallnd hmemAll
  rcases List.append_of_mem hmP with ⟨pre, post, hPe⟩
  have hnd2 : (pre ++ m.id :: post).Nodup := hPe ▸ hPnd
  have hpre : m.id ∉ pre := by
    intro hmem2
    exact (List.nodup_append.mp hnd2).2.2 hmem2 (by simp)
  have hpost : m.id ∉ post := (List.nodup_cons.mp (List.nodup_append.mp hnd2).2.1).1
  rw [hinit, hPe]
  have hfinal := getStored_applyAll_once now "common.error.sessionInterrupted"
    pre post m.id st m hpre hpost hgot
  simpa [msgUpd] using hfinal

/-- Witness for C5: a one-conversation store whose single pending
assistant message is finalized with the session-interrupted marker. -/
theorem C5_recovery_finalizes_pending_witness :
    getStoredMessage
        (initializeUnfinishedMessages 7
          ⟨[⟨1, [⟨10, MsgRole.assistant, MsgStatus.pending,
              [⟨BlockType.content, "hi", BlockStatus.loading, 0, none⟩],
              ⟨0, 0, 0, JsNum.nan⟩⟩]⟩], []⟩) 10
      = some ⟨10, MsgRole.assistant, MsgStatus.error,
          [⟨BlockType.content, "hi", BlockStatus.error, 0, none⟩,
           ⟨BlockType.error, "common.error.sessionInterrupted", BlockStatus.error, 7, none⟩],
          ⟨0, 0, 0, JsNum.nan⟩⟩ := by
  have h := C5_recovery_finalizes_pending 7
    ⟨[⟨1, [⟨10, MsgRole.assistant, MsgStatus.pending,
        [⟨BlockType.content, "hi", BlockStatus.loading, 0, none⟩],
        ⟨0, 0, 0, JsNum.nan⟩⟩]⟩], []⟩
    (by decide) (by decide)
    ⟨1, [⟨10, MsgRole.assistant, MsgStatus.pending,
        [⟨BlockType.content, "hi", BlockStatus.loading, 0, none⟩],
        ⟨0, 0, 0, JsNum.nan⟩⟩]⟩ (by decide)
    ⟨10, MsgRole.assistant, MsgStatus.pending,
        [⟨BlockType.content, "hi", BlockStatus.loading, 0, none⟩],
        ⟨0, 0, 0, JsNum.nan⟩⟩ (by decide) rfl rfl
  simpa [markErrorBlocks] using h

/-- The message beyond the recovery scan's pagination window. -/
def c5PendingMsg : StoredMessage :=
  ⟨42, MsgRole.assistant, MsgStatus.pending, [], ⟨0, 0, 0, JsNum.nan⟩⟩

/-- A store with 1000 empty conversations followed by one holding a
pending assistant message. -/
def c5OverflowState : ThreadState :=
  ⟨List.replicate 1000 ⟨0, []⟩ ++ [⟨1, [c5PendingMsg]⟩], []⟩

lemma list_foldl_fixed {α β : Type} (f : β → α → β) (b : β) :
    ∀ l : List α, (∀ x ∈ l, f b x = b) → l.foldl f b = b := by
  intro l
  induction l with
  | nil => intro _; rfl
  | cons x t ih =>
      intro h
      rw [List.foldl_cons, h x (by simp)]
      exact ih (fun y hy => h y (by simp [hy]))

lemma flatten_replicate_nil {α : Type} : ∀ n : Nat, (List.replicate n ([] : List α)).flatten = [] := by
  intro n
  induction n with
  | zero => rfl
  | succ k ih => rw [List.replicate_succ, List.flatten_cons, List.nil_append, ih]

lemma c5_conversations :
    c5OverflowState.conversations
      = List.replicate 1000 (⟨0, []⟩ : Conversation) ++ [⟨1, [c5PendingMsg]⟩] := rfl

lemma c5_find0 :
    c5OverflowState.conversations.find? (fun c => c.id == (0 : Nat)) = some ⟨0, []⟩ := by
  rw [c5_conversations, show (1000 : Nat) = 999 + 1 from rfl, List.replicate_succ,
    List.cons_append]
  exact List.find?_cons_of_pos _ (by simp)

lemma c5_initStep_fixed : ∀ conv ∈ List.replicate 1000 (⟨0, []⟩ : Conversation),
    initStep 5 c5OverflowState conv = c5OverflowState := by
  intro conv hconv
  have he : conv = ⟨0, []⟩ := List.eq_of_mem_replicate hconv
  subst he
  unfold initStep
  dsimp only
  rw [c5_find0]
  rfl

set_option maxRecDepth 4000 in
lemma c5_init_id : initializeUnfinishedMessages 5 c5OverflowState = c5OverflowState := by
  unfold initializeUnfinishedMessages
  have htake : ((c5OverflowState.conversations.drop 0).take 1000)
      = List.replicate 1000 (⟨0, []⟩ : Conversation) := by
    rw [c5_conversations, List.drop_zero]
    conv_lhs =>
      rw [show (1000 : Nat) = (List.replicate 1000 (⟨0, []⟩ : Conversation)).length from
        (List.length_replicate 1000 _).symm]
    exact List.take_left _ _
  rw [htake]
  exact list_foldl_fixed _ _ _ c5_initStep_fixed

lemma c5_getStored : getStoredMessage c5OverflowState 42 = some c5PendingMsg := by
  unfold getStoredMessage allMessages
  rw [c5_conversations, List.map_append, List.flatten_append, List.map_replicate]
  dsimp only
  rw [flatten_replicate_nil]
  simp [c5PendingMsg]

/-- Counterexample to C5 as stated: with 1001 conversations, the
pagination (page 1, page size 1000) never reaches the last conversation,
so its pending assistant message is left untouched by recovery. -/
theorem C5_counterexample :
    c5PendingMsg.role = MsgRole.assistant
    ∧ c5PendingMsg.status = MsgStatus.pending
    ∧ getStoredMessage c5OverflowState 42 = some c5PendingMsg
    ∧ getStoredMessage (initializeUnfinishedMessages 5 c5OverflowState) 42 = some c5PendingMsg
    ∧ MsgStatus.pending ≠ MsgStatus.error := by
  refine ⟨rfl, rfl, c5_getStored, ?_, by decide⟩
  rw [c5_init_id]
  exact c5_getStored

lemma isPrefixOf_eq_take : ∀ (p x : Str), p.isPrefixOf x = true ↔ x.take p.length = p := by
  intro p
  induction p with
  | nil => intro x; simp [List.isPrefixOf]
  | cons a p' ih =>
      intro x
      cases x with
      | nil => simp [List.isPrefixOf]
      | cons b x' =>
          simp only [List.isPrefixOf, Bool.and_eq_true, beq_iff_eq, List.length_cons,
            List.take_succ_cons, List.cons.injEq, ih x']
          constructor
          · rintro ⟨h1, h2⟩
            exact ⟨h1.symm, h2⟩
          · rintro ⟨h1, h2⟩
            exact ⟨h1.symm, h2⟩

lemma isPrefixOf_take (p x : Str) (m : Nat) :
    p.isPrefixOf (x.take m) = true ↔ (p.isPrefixOf x = true ∧ p.length ≤ m) := by
  rw [isPrefixOf_eq_take, isPrefixOf_eq_take, List.take_take]
  by_cases hm : p.length ≤ m
  · rw [min_eq_left hm]
    constructor
    · intro h
      exact ⟨h, hm⟩
    · intro h
      exact h.1
  · have hm' : m < p.length := Nat.lt_of_not_le hm
    rw [min_eq_right (Nat.le_of_lt hm')]
    constructor
    · intro h
      exfalso
      have : (x.take m).length = p.length := by rw [h]
      rw [List.length_take] at this
      omega
    · intro h
      omega

lemma occursAt_lt_length (s pat : Str) (k : Nat) (hpat : pat ≠ [])
    (h : occursAt s pat k) : k < s.length := by
  unfold occursAt at h
  by_contra hk
  push_neg at hk
  rw [List.drop_eq_nil_of_le hk] at h
  cases pat with
  | nil => exact hpat rfl
  | cons a p' => simp [List.isPrefixOf] at h

lemma occursAt_succ_cons (ch : Char) (t pat : Str) (k : Nat) :
    occursAt (ch :: t) pat (k + 1) ↔ occursAt t pat k := Iff.rfl

lemma firstOcc_sound (pat : Str) :
    ∀ (s : Str) (k : Nat), firstOcc pat s = some k → occursAt s pat k ∧ k ≤ s.length := by
  intro s
  induction s with
  | nil =>
      intro k h
      unfold firstOcc at h
      split_ifs at h with hp
      · cases h
        exact ⟨hp, Nat.le_refl 0⟩
  | cons ch t ih =>
      intro k h
      unfold firstOcc at h
      split_ifs at h with hp
      · cases h
        exact ⟨hp, by simp⟩
      · rcases Option.map_eq_some'.mp h with ⟨k', hk', rfl⟩
        rcases ih k' hk' with ⟨h1, h2⟩
        exact ⟨h1, by simpa using h2⟩

lemma firstOcc_complete (pat : Str) :
    ∀ (s : Str) (k : Nat), occursAt s pat k → (∀ k' < k, ¬ occursAt s pat k') →
      firstOcc pat s = some k := by
  intro s
  induction s with
  | nil =>
      intro k hk hleast
      have h0 : occursAt ([] : Str) pat 0 := by
        unfold occursAt at hk ⊢
        simpa using hk
      have hk0 : k = 0 := by
        by_contra hne
        exact hleast 0 (Nat.pos_of_ne_zero hne) h0
      subst hk0
      have h0' : pat.isPrefixOf ([] : Str) = true := by simpa [occursAt] using h0
      unfold firstOcc
      rw [if_pos h0']
  | cons ch t ih =>
      intro k hk hleast
      by_cases hp : pat.isPrefixOf (ch :: t) = true
      · have hk0 : k = 0 := by
          by_contra hne
          exact hleast 0 (Nat.pos_of_ne_zero hne) hp
        subst hk0
        unfold firstOcc
        rw [if_pos hp]
      · cases k with
        | zero => exact absurd hk hp
        | succ k' =>
            unfold firstOcc
            rw [if_neg hp, ih k' hk (fun m hm hocc => hleast (m + 1) (by omega) hocc)]
            rfl

lemma lastOcc_none (pat : Str) :
    ∀ (s : Str), (∀ k, ¬ occursAt s pat k) → lastOcc pat s = none := by
  intro s
  induction s with
  | nil =>
      intro h
      have h0 : ¬ pat.isPrefixOf ([] : Str) = true := fun hp => h 0 hp
      unfold lastOcc
      rw [if_neg h0]
  | cons ch t ih =>
      intro h
      have h0 : ¬ pat.isPrefixOf (ch :: t) = true := fun hp => h 0 hp
      unfold lastOcc
      rw [ih (fun k hk => h (k + 1) hk)]
      exact if_neg h0

lemma lastOcc_complete (pat : Str) (hpat : pat ≠ []) :
    ∀ (s : Str) (k : Nat), occursAt s pat k →
      (∀ k', k' ≤ s.length → occursAt s pat k' → k' ≤ k) →
      lastOcc pat s = some k := by
  intro s
  induction s with
  | nil =>
      intro k hk _
      exact absurd (occursAt_lt_length [] pat k hpat hk) (by simp)
  | cons ch t ih =>
      intro k hk hmax
      cases k with
      | zero =>
          have hnone : ∀ m, ¬ occursAt t pat m := by
            intro m hm
            have hlt : m < t.length := occursAt_lt_length t pat m hpat hm
            have := hmax (m + 1) (by simp; omega) hm
            omega
          have hk' : pat.isPrefixOf (ch :: t) = true := hk
          unfold lastOcc
          rw [lastOcc_none pat t hnone]
          exact if_pos hk'
      | succ k' =>
          have hmax' : ∀ m, m ≤ t.length → occursAt t pat m → m ≤ k' := by
            intro m hle hm
            have := hmax (m + 1) (by simpa using Nat.succ_le_succ hle) hm
            omega
          unfold lastOcc
          rw [ih k' hk hmax']

lemma jsSlice_take (s : Str) (t : Nat) (h : t ≤ s.length) :
    jsSlice s 0 (t : Int) = s.take t := by
  unfold jsSlice
  dsimp only
  rw [if_neg (show ¬ ((0 : Int) < 0) by omega),
    if_neg (show ¬ ((t : Int) < 0) by omega),
    min_eq_left (show (0 : Int) ≤ (s.length : Int) by positivity),
    min_eq_left (show (t : Int) ≤ (s.length : Int) by exact_mod_cast h)]
  simp

lemma jsSlice_drop (s : Str) (t : Nat) (h : t ≤ s.length) :
    jsSlice s (t : Int) (s.length : Int) = s.drop t := by
  unfold jsSlice
  dsimp only
  rw [if_neg (show ¬ ((t : Int) < 0) by omega),
    if_neg (show ¬ ((s.length : Int) < 0) by omega),
    min_eq_left (show (t : Int) ≤ (s.length : Int) by exact_mod_cast h),
    min_self]
  simp [List.take_length]

lemma jsSlice_between (s : Str) (i j : Nat) (hj : j ≤ s.length) :
    jsSlice s (i : Int) (j : Int) = (s.drop i).take (j - i) := by
  unfold jsSlice
  dsimp only
  rw [if_neg (show ¬ ((i : Int) < 0) by omega),
    if_neg (show ¬ ((j : Int) < 0) by omega),
    min_eq_left (show (j : Int) ≤ (s.length : Int) by exact_mod_cast hj)]
  by_cases hi : i ≤ s.length
  · rw [min_eq_left (show (i : Int) ≤ (s.length : Int) by exact_mod_cast hi)]
    simp [List.drop_take]
  · rw [min_eq_right (show (s.length : Int) ≤ (i : Int) by
      exact_mod_cast Nat.le_of_not_le hi)]
    have h1 : s.drop s.length = [] := by simp
    have h2 : s.drop i = [] := List.drop_eq_nil_of_le (Nat.le_of_not_le hi)
    simp [List.drop_take, h1, h2]

lemma jsIndexOf_neg_of_not_contains (s pat : Str) (h : ¬ containsSub s pat) :
    jsIndexOf s pat = -1 := by
  unfold jsIndexOf
  cases hfo : firstOcc pat s with
  | none => rfl
  | some k =>
      exfalso
      rcases firstOcc_sound pat s k hfo with ⟨h1, h2⟩
      exact h ⟨k, h2, h1⟩

/-- C3: `getAnswer` leaves the file list unchanged exactly when no
file's content contains the user text; when the first containing file
exists, only that file is returned, its content replaced by the slice
of the original content from the last occurrence of `'question'` lying
entirely before the text to the first occurrence of `'question'` at or
after the text's position, with the answer marker appended. -/
theorem C3_getAnswer_substitution :
    (∀ (text : Str) (files : List MessageFile),
      (∀ f ∈ files, ¬ containsSub f.content text) → getAnswer text files = files)
    ∧ (∀ (text : Str) (pre post : List MessageFile) (file : MessageFile) (tIdx i j : Nat),
        (∀ f ∈ pre, ¬ containsSub f.content text) →
        occursAt file.content text tIdx →
        (∀ k < tIdx, ¬ occursAt file.content text k) →
        occursAt file.content questionMarker i →
        i + questionMarker.length ≤ tIdx →
        (∀ k ≤ file.content.length, occursAt file.content questionMarker k →
          k + questionMarker.length ≤ tIdx → k ≤ i) →
        occursAt file.content questionMarker j →
        tIdx ≤ j →
        (∀ k ≤ file.content.length, occursAt file.content questionMarker k →
          tIdx ≤ k → j ≤ k) →
        getAnswer text (pre ++ file :: post)
          = [{ file with content := (file.content.drop i).take (j - i) ++ answerMarker }]) := by
  constructor
  · intro text files h
    unfold getAnswer
    have hnone : files.find? (fun f => decide (jsIndexOf f.content text > -1)) = none := by
      rw [List.find?_eq_none]
      intro f hf
      rw [jsIndexOf_neg_of_not_contains f.content text (h f hf)]
      simp
    rw [hnone]
  · intro text pre post file tIdx i j hpre hocc hleast hqi hile hmax hqj htj hjmin
    have hQne : questionMarker ≠ [] := by decide
    have hQpos : 0 < questionMarker.length := by decide
    have htle : tIdx ≤ file.content.length := by
      rcases Nat.eq_zero_or_pos tIdx with h0 | hpos
      · simp [h0]
      · have htext : text ≠ [] := by
          intro he
          subst he
          exact hleast 0 hpos (by simp [occursAt, List.isPrefixOf])
        exact (occursAt_lt_length _ _ _ htext hocc).le
    have hjlt : j < file.content.length := occursAt_lt_length _ _ _ hQne hqj
    have hfo : firstOcc text file.content = some tIdx :=
      firstOcc_complete text file.content tIdx hocc hleast
    have htI : jsIndexOf file.content text = (tIdx : Int) := by
      unfold jsIndexOf
      rw [hfo]
    have hfind : (pre ++ file :: post).find?
        (fun f => decide (jsIndexOf f.content text > -1)) = some file := by
      rw [List.find?_append]
      have h1 : pre.find? (fun f => decide (jsIndexOf f.content text > -1)) = none := by
        rw [List.find?_eq_none]
        intro f hf
        rw [jsIndexOf_neg_of_not_contains f.content text (hpre f hf)]
        simp
      rw [h1, Option.none_or]
      apply List.find?_cons_of_pos
      rw [htI]
      simp only [decide_eq_true_eq]
      omega
    unfold getAnswer
    rw [hfind]
    dsimp only
    rw [htI, jsSlice_take file.content tIdx htle]
    have hlo : lastOcc questionMarker (file.content.take tIdx) = some i := by
      apply lastOcc_complete questionMarker hQne
      · unfold occursAt
        rw [List.drop_take, isPrefixOf_take]
        exact ⟨hqi, by omega⟩
      · intro k hk hocck
        unfold occursAt at hocck
        rw [List.drop_take, isPrefixOf_take] at hocck
        obtain ⟨ho1, ho2⟩ := hocck
        rw [List.length_take] at hk
        have hkle : k ≤ file.content.length := by omega
        exact hmax k hkle ho1 (by omega)
    have hql : jsLastIndexOf (file.content.take tIdx) questionMarker = (i : Int) := by
      unfold jsLastIndexOf
      rw [hlo]
    rw [hql, jsSlice_drop file.content tIdx htle]
    have hfo2 : firstOcc questionMarker (file.content.drop tIdx) = some (j - tIdx) := by
      apply firstOcc_complete
      · unfold occursAt
        rw [List.drop_drop]
        have he : tIdx + (j - tIdx) = j := by omega
        rw [he]
        exact hqj
      · intro k hk hocck
        unfold occursAt at hocck
        rw [List.drop_drop] at hocck
        have hocc' : occursAt file.content questionMarker (tIdx + k) := hocck
        have hb : tIdx + k ≤ file.content.length := by
          have := occursAt_lt_length _ _ _ hQne hocc'
          omega
        have := hjmin (tIdx + k) hb hocc' (by omega)
        omega
    have hqe : jsIndexOf (file.content.drop tIdx) questionMarker
        = ((j - tIdx : Nat) : Int) := by
      unfold jsIndexOf
      rw [hfo2]
    rw [hqe]
    have hsum : (tIdx : Int) + ((j - tIdx : Nat) : Int) = (j : Int) := by omega
    rw [hsum, jsSlice_between file.content i j hjlt.le]

/-- Witness for C3 at a concrete file: text `"foo"` inside a file whose
content has a `'question'` before and after it. -/
theorem C3_getAnswer_substitution_witness :
    getAnswer "foo".toList
        [⟨"f".toList, "question abc foo bar question xyz".toList⟩]
      = [⟨"f".toList,
          ("question abc foo bar question xyz".toList.drop 0).take 21 ++ answerMarker⟩] :=
  C3_getAnswer_substitution.2 "foo".toList [] []
    ⟨"f".toList, "question abc foo bar question xyz".toList⟩ 13 0 21
    (by simp) (by decide) (by decide) (by decide) (by decide) (by decide)
    (by decide) (by decide) (by decide)

end DeepChat
